import Mathlib

/-!
Verification of the simple-index publisher of `pulp_python`
(`pulp_python/app/tasks/publish.py`).

The publisher takes a repository version's content set and produces a static
PyPI "simple" API tree: a root `simple/index.html` listing all distinct
project names, plus one `simple/<canonical_name>/index.html` per project
listing its package files with checksums.

The embedding models the database tables the publisher queries
(`PythonPackageContent`, `ContentArtifact`, `Artifact`, `RemoteArtifact`,
restricted to one repository version), the Django query expressions of
`write_simple_api` (lines 85-133 of `publish.py`) as pure functions over
those tables, and the grouping loop (lines 135-170) as a recursion that
returns either the list of written files or the Python exception that
aborts the run (`KeyError` from `checksums[content_artifact]`,
`FileExistsError` from `os.mkdir`, `IndexError` from `index_names[ind]`).
-/

/-- One row of the `PythonPackageContent` table (restricted to the
repository version being published): project `name`, package `filename`. -/
structure PythonPackageContent where
  pk : Nat
  name : String
  filename : String
deriving DecidableEq, Repr

/-- One row of the `ContentArtifact` table: links a content row (`content`
foreign key) to a stored `Artifact` when one exists (`artifact` is null for
on-demand content whose payload only exists remotely). -/
structure ContentArtifact where
  pk : Nat
  content : Nat
  artifact : Option Nat
deriving DecidableEq, Repr

/-- One row of the `Artifact` table: a locally stored binary with its
`sha256` checksum. -/
structure Artifact where
  pk : Nat
  sha256 : String
deriving DecidableEq, Repr

/-- One row of the `RemoteArtifact` table: a checksum known for a
content-artifact whose payload is not stored locally. -/
structure RemoteArtifact where
  content_artifact : Nat
  sha256 : String
deriving DecidableEq, Repr

/-- The tables visible to one publish run: every query in
`write_simple_api` filters content by
`pk__in=publication.repository_version.content`, so `contents` holds
exactly the repository version's content rows. -/
structure Db where
  contents : List PythonPackageContent
  content_artifacts : List ContentArtifact
  artifacts : List Artifact
  remote_artifacts : List RemoteArtifact
deriving DecidableEq, Repr

/-- Separator characters collapsed by PyPI name canonicalization
(`packaging.utils.canonicalize_name`: `re.sub(r"[-_.]+", "-", name).lower()`). -/
def canonSep (c : Char) : Bool := c = '-' || c = '_' || c = '.'

/-- Character-level canonicalization: each maximal run of `-`, `_`, `.` is
replaced by a single `-`; all other characters are lowercased.  The flag
records whether the previous character belonged to a separator run. -/
def canonAux : Bool → List Char → List Char
  | _, [] => []
  | prevSep, c :: rest =>
    if canonSep c then
      if prevSep then canonAux true rest else '-' :: canonAux true rest
    else c.toLower :: canonAux false rest

/-- The `canonicalize_name` of `packaging.utils`, used at line 94 of
`publish.py`: collapse runs of `-`, `_`, `.` to `-`, then lowercase. -/
def canonicalize_name (s : String) : String := ⟨canonAux false s.data⟩

/-- Kernel-computable decision procedure for the lexicographic order on
strings (the order `ORDER BY name` sorts by), so that concrete runs of the
publisher evaluate by reduction. -/
instance stringDecLE : DecidableRel (fun a b : String => a ≤ b) :=
  fun a b =>
    decidable_of_iff (¬ b.toList < a.toList)
      (by show _ ↔ a ≤ b
          rw [String.le_iff_toList_le]
          exact not_lt)

/-- One row of the `releases` queryset (lines 113-119):
`.values("name", "filename", "contentartifact", "_artifacts__sha256")`.
`contentartifact` and `sha256` are null when the LEFT JOINs find no
content-artifact row, respectively no stored artifact. -/
structure Release where
  name : String
  filename : String
  contentartifact : Option Nat
  sha256 : Option String
deriving DecidableEq, Repr

/-- The `project_names` queryset (lines 85-92):
`.order_by('name').values_list('name', flat=True).distinct()`, i.e. the
alphabetically sorted distinct project names of the version's content. -/
def projectNamesQuery (db : Db) : List String :=
  ((db.contents.map (·.name)).insertionSort (· ≤ ·)).dedup

/-- The `index_names` list (line 94): each project name paired with its
canonicalized form. -/
def indexNamesQuery (db : Db) : List (String × String) :=
  (projectNamesQuery db).map fun n => (n, canonicalize_name n)

/-- The content rows ordered by name, as the `releases` queryset's
`order_by("name")` returns them (a stable sort models the database's
choice among rows with equal names). -/
def sortedContents (db : Db) : List PythonPackageContent :=
  db.contents.insertionSort (fun a b => a.name ≤ b.name)

/-- The `sha256` reached from a content-artifact through the
`_artifacts` join: the checksum of its stored artifact, if any. -/
def artifactSha (db : Db) (ca : ContentArtifact) : Option String :=
  ca.artifact.bind fun apk =>
    (db.artifacts.find? (fun a => a.pk = apk)).map (·.sha256)

/-- The joined rows one content row contributes to the `releases`
queryset: one row per related content-artifact (LEFT JOIN), or a single
row with null `contentartifact` and null `sha256` when it has none. -/
def contentRows (db : Db) (c : PythonPackageContent) : List Release :=
  match db.content_artifacts.filter (fun ca => ca.content = c.pk) with
  | [] => [⟨c.name, c.filename, none, none⟩]
  | cas => cas.map fun ca => ⟨c.name, c.filename, some ca.pk, artifactSha db ca⟩

/-- The `releases` queryset (lines 113-119): the version's content rows
ordered by project name, joined to their content-artifacts and stored
artifact checksums. -/
def releasesQuery (db : Db) : List Release :=
  (sortedContents db).flatMap (contentRows db)

/-- The `release_content_artifacts` queryset (lines 120-125):
`.values_list("contentartifact", flat=True)`, null for content rows
without a content-artifact. -/
def releaseContentArtifacts (db : Db) : List (Option Nat) :=
  db.contents.flatMap fun c =>
    match db.content_artifacts.filter (fun ca => ca.content = c.pk) with
    | [] => [none]
    | cas => cas.map fun ca => some ca.pk

/-- The `remote_artifacts` queryset (lines 126-131): `(content_artifact,
sha256)` pairs of remote artifacts whose content-artifact belongs to the
version (SQL `IN` never matches the null entries of the filter list). -/
def remoteArtifactsQuery (db : Db) : List (Nat × String) :=
  (db.remote_artifacts.filter
      (fun ra => some ra.content_artifact ∈ releaseContentArtifacts db)).map
    fun ra => (ra.content_artifact, ra.sha256)

/-- Lookup in the `checksums` dict of line 133 (`{ca: sha for ca, sha in
remote_artifacts}`): the value of the last pair with the given key, since
later dict-comprehension entries overwrite earlier ones. -/
def dictGet (d : List (Nat × String)) (k : Nat) : Option String :=
  (d.reverse.find? (fun p => p.1 = k)).map (·.2)

/-- The Python exceptions that can abort `write_simple_api`:
`checksums[content_artifact]` raises `KeyError`, `os.mkdir` raises
`FileExistsError` on an existing directory, `index_names[ind]` raises
`IndexError` past the end of the list. -/
inductive PubErr where
  | keyError
  | fileExistsError
  | indexError
deriving DecidableEq, Repr

/-- Python truthiness of the `_artifacts__sha256` column as tested by the
`or` at line 168: `None` and the empty string are falsy, every other
string is truthy. -/
def pyTruthy : Option String → Bool
  | none => false
  | some s => !s.isEmpty

/-- The checksum of one release row (line 168):
`release['_artifacts__sha256'] or checksums[content_artifact]` — the row's
own artifact sha256 when truthy, otherwise the dict lookup, which raises
`KeyError` when the content-artifact identifier is not a key (a null
identifier is never a key). -/
def resolveChecksum (checksums : List (Nat × String)) (r : Release) :
    Except PubErr String :=
  if pyTruthy r.sha256 then .ok (r.sha256.getD "")
  else
    match r.contentartifact with
    | none => .error .keyError
    | some ca =>
      match dictGet checksums ca with
      | some s => .ok s
      | none => .error .keyError

/-- The body of the `for` loop below the cursor update (lines 165-169):
resolve the row's checksum and append the `(relative_path, path,
checksum)` triple to the accumulator. -/
def appendRow (checksums : List (Nat × String)) (r : Release)
    (pkgs : List (String × String × String)) :
    Except PubErr (List (String × String × String)) :=
  (resolveChecksum checksums r).map fun chk =>
    pkgs ++ [(r.filename, "../../" ++ r.filename, chk)]

/-- The structured content of one written metadata file: the root index's
`(name, canonical_name)` project list, or a detail page's project name and
`(name, path, sha256)` package triples — the template contexts of lines 99
and 142-145. -/
inductive Page where
  | root (projects : List (String × String))
  | detail (project_name : String)
      (project_packages : List (String × String × String))
deriving DecidableEq, Repr

/-- One file registered with the publication: its relative path and its
structured content. -/
structure PublishedFile where
  relative_path : String
  content : Page
deriving DecidableEq, Repr

/-- One anchor tag of a generated page: `href`, optional `rel` attribute,
link text. -/
structure Anchor where
  href : String
  relAttr : Option String
  text : String
deriving DecidableEq, Repr

/-- The anchors of the root index template (lines 24-26 of `publish.py`):
one per `(name, canonical_name)` pair, `href="{{ canonical_name }}/"`,
text `{{ name }}`. -/
def rootAnchors (projects : List (String × String)) : List Anchor :=
  projects.map fun p => ⟨p.2 ++ "/", none, p.1⟩

/-- The anchors of the detail template (lines 40-42 of `publish.py`): one
per `(name, path, sha256)` triple, `href="{{ path }}#sha256={{ sha256 }}"`,
`rel="internal"`, text `{{ name }}`. -/
def detailAnchors (pkgs : List (String × String × String)) : List Anchor :=
  pkgs.map fun t => ⟨t.2.1 ++ "#sha256=" ++ t.2.2, some "internal", t.1⟩

/-- The anchors a page's template renders. -/
def Page.anchors : Page → List Anchor
  | .root ps => rootAnchors ps
  | .detail _ pkgs => detailAnchors pkgs

/-- One rendered anchor tag, as both templates emit it. -/
def renderAnchor (a : Anchor) : String :=
  "<a href=\"" ++ a.href ++ "\"" ++
    (match a.relAttr with
     | some rel => " rel=\"" ++ rel ++ "\""
     | none => "") ++
    ">" ++ a.text ++ "</a>"

/-- The rendered bytes of `simple_index_template` (lines 17-29). -/
def renderRoot (projects : List (String × String)) : String :=
  "<!DOCTYPE html>\n<html>\n  <head>\n    <title>Simple Index</title>\n    <meta name=\"api-version\" value=\"2\" />\n  </head>\n  <body>\n    " ++
    String.join ((rootAnchors projects).map
      fun a => "\n    " ++ renderAnchor a ++ "<br/>\n    ") ++
    "\n  </body>\n</html>\n"

/-- The rendered bytes of `simple_detail_template` (lines 32-45). -/
def renderDetail (project_name : String)
    (pkgs : List (String × String × String)) : String :=
  "<!DOCTYPE html>\n<html>\n<head>\n  <title>Links for " ++ project_name ++
    "</title>\n  <meta name=\"api-version\" value=\"2\" />\n</head>\n<body>\n    <h1>Links for " ++
    project_name ++ "</h1>\n    " ++
    String.join ((detailAnchors pkgs).map
      fun a => "\n    " ++ renderAnchor a ++ "<br/>\n    ") ++
    "\n</body>\n</html>\n"

/-- The rendered bytes of a page. -/
def Page.render : Page → String
  | .root ps => renderRoot ps
  | .detail pn pkgs => renderDetail pn pkgs

/-- The `write_project_page` closure (lines 135-154): fetch
`index_names[ind]` (raising `IndexError` past the end), create the
project's directory (raising `FileExistsError` if it already exists —
`dirs` tracks previously created directories), and write the detail page
for the accumulated triples.  Returns the written file and the grown
directory set. -/
def write_project_page (index_names : List (String × String)) (ind : Nat)
    (pkgs : List (String × String × String)) (dirs : List String) :
    Except PubErr (PublishedFile × List String) :=
  match index_names.get? ind with
  | none => .error .indexError
  | some p =>
    let project_dir := "simple/" ++ p.2 ++ "/"
    if project_dir ∈ dirs then .error .fileExistsError
    else .ok (⟨project_dir ++ "index.html", .detail p.2 pkgs⟩,
              project_dir :: dirs)

/-- The grouping loop of lines 156-170: stream the release rows, and on a
row whose name differs from the current cursor flush the accumulated page,
advance `ind`, reset the accumulator; every row is then appended to the
accumulator.  After the stream, flush the final accumulator (line 170). -/
def publishLoop (index_names : List (String × String))
    (checksums : List (Nat × String)) :
    List Release → Nat → String → List (String × String × String) →
      List String → Except PubErr (List PublishedFile)
  | [], ind, _cur, pkgs, dirs => do
      let fd ← write_project_page index_names ind pkgs dirs
      pure [fd.1]
  | r :: rest, ind, cur, pkgs, dirs =>
      if r.name ≠ cur then do
        let fd ← write_project_page index_names ind pkgs dirs
        match index_names.get? (ind + 1) with
        | none => .error .indexError
        | some nx => do
            let pkgs₁ ← appendRow checksums r []
            let files ← publishLoop index_names checksums rest (ind + 1)
              nx.1 pkgs₁ fd.2
            pure (fd.1 :: files)
      else do
        let pkgs₁ ← appendRow checksums r pkgs
        publishLoop index_names checksums rest ind cur pkgs₁ dirs

/-- The body of `write_simple_api` (lines 70-170) over its three query
results: write the root index, return early when there are no projects
(lines 110-111), otherwise build the checksum dict and run the grouping
loop starting at `ind = 0` with `current_name = index_names[0][0]`
(lines 156-158). -/
def write_simple_api_core (project_names : List String)
    (releases : List Release) (checksums : List (Nat × String)) :
    Except PubErr (List PublishedFile) :=
  let index_names := project_names.map fun n => (n, canonicalize_name n)
  let rootFile : PublishedFile := ⟨"simple/index.html", .root index_names⟩
  if index_names.length = 0 then .ok [rootFile]
  else
    match index_names.get? 0 with
    | none => .error .indexError
    | some p =>
      (publishLoop index_names checksums releases 0 p.1 [] []).map
        fun pages => rootFile :: pages

/-- The `write_simple_api` task body applied to a repository version's
tables: the file list it registers with the publication, or the exception
that aborts the run. -/
def write_simple_api (db : Db) : Except PubErr (List PublishedFile) :=
  write_simple_api_core (projectNamesQuery db) (releasesQuery db)
    (remoteArtifactsQuery db)

/-- Modelled from the spec: the grouping loop with the final flush of line
170 (`write_project_page()  # Write the final project's page`) removed —
the counterfactual the spec appeals to when it calls the final flush a
correctness requirement.  This code is not in the repository; it differs
from `publishLoop` only in the empty-stream case. -/
def publishLoopNoFinal (index_names : List (String × String))
    (checksums : List (Nat × String)) :
    List Release → Nat → String → List (String × String × String) →
      List String → Except PubErr (List PublishedFile)
  | [], _ind, _cur, _pkgs, _dirs => .ok []
  | r :: rest, ind, cur, pkgs, dirs =>
      if r.name ≠ cur then do
        let fd ← write_project_page index_names ind pkgs dirs
        match index_names.get? (ind + 1) with
        | none => .error .indexError
        | some nx => do
            let pkgs₁ ← appendRow checksums r []
            let files ← publishLoopNoFinal index_names checksums rest
              (ind + 1) nx.1 pkgs₁ fd.2
            pure (fd.1 :: files)
      else do
        let pkgs₁ ← appendRow checksums r pkgs
        publishLoopNoFinal index_names checksums rest ind cur pkgs₁ dirs

/-- Modelled from the spec: `write_simple_api` built on the loop without
the final flush, for the spec's counterfactual about line 170. -/
def write_simple_api_noFinalFlush (db : Db) :
    Except PubErr (List PublishedFile) :=
  let index_names := indexNamesQuery db
  let rootFile : PublishedFile := ⟨"simple/index.html", .root index_names⟩
  if index_names.length = 0 then .ok [rootFile]
  else
    match index_names.get? 0 with
    | none => .error .indexError
    | some p =>
      (publishLoopNoFinal index_names (remoteArtifactsQuery db)
          (releasesQuery db) 0 p.1 [] []).map
        fun pages => rootFile :: pages

/-! ## Specification-side definitions used to state the loop's behavior -/

/-- The triple line 169 appends for a release row, with the resolved
checksum (defaulting to `""` — irrelevant on runs where resolution
succeeded). -/
def tripleOf (checksums : List (Nat × String)) (r : Release) :
    String × String × String :=
  (r.filename, "../../" ++ r.filename,
    (resolveChecksum checksums r).toOption.getD "")

/-- The detail pages a successful run writes for the given index entries:
one page per entry, at `simple/<canonical>/index.html`, listing the rows
whose name is the entry's display name in row order; the first page is
additionally prefixed by an already-accumulated package list. -/
def expectedPages (checksums : List (Nat × String)) (rows : List Release) :
    List (String × String × String) → List (String × String) →
      List PublishedFile
  | _, [] => []
  | pkgs, p :: rest =>
      ⟨"simple/" ++ p.2 ++ "/index.html",
        .detail p.2
          (pkgs ++ (rows.filter (fun r => r.name = p.1)).map
            (tripleOf checksums))⟩ ::
        expectedPages checksums rows [] rest

/-- The sequence of distinct names of a run-length-grouped list: adjacent
duplicates collapsed. -/
def runNames : List String → List String
  | [] => []
  | [a] => [a]
  | a :: b :: l => if a = b then runNames (b :: l) else a :: runNames (b :: l)

/-! ## Lemmas about `runNames` -/

theorem runNames_head (a : String) (l : List String) :
    ∃ t, runNames (a :: l) = a :: t := by
  induction l generalizing a with
  | nil => exact ⟨[], rfl⟩
  | cons b l ih =>
    by_cases h : a = b
    · obtain ⟨t, ht⟩ := ih b
      exact ⟨t, by simp [runNames, h, ht]⟩
    · exact ⟨runNames (b :: l), by simp [runNames, h]⟩

theorem runNames_chain_lt (l : List String) (h : l.Chain' (· ≤ ·)) :
    (runNames l).Chain' (· < ·) := by
  induction l with
  | nil => simp [runNames]
  | cons a l ih =>
    cases l with
    | nil => simp [runNames]
    | cons b l =>
      rw [List.chain'_cons] at h
      by_cases hab : a = b
      · simpa [runNames, hab] using ih h.2
      · rw [runNames, if_neg hab]
        obtain ⟨t, ht⟩ := runNames_head b l
        rw [ht]
        exact List.chain'_cons.mpr ⟨lt_of_le_of_ne h.1 hab, ht ▸ ih h.2⟩

theorem runNames_const_prefix (n : String) (xs l : List String)
    (h : ∀ x ∈ xs, x = n) :
    runNames (n :: (xs ++ l)) = runNames (n :: l) := by
  induction xs with
  | nil => rfl
  | cons x xs ih =>
    have hx : x = n := h x (by simp)
    have : runNames (n :: (x :: xs ++ l)) = runNames (n :: (xs ++ l)) := by
      simp [runNames, hx]
    rw [this, ih fun y hy => h y (by simp [hy])]

theorem runNames_sorted_eq_dedup (l : List String)
    (h : l.Sorted (· ≤ ·)) : runNames l = l.dedup := by
  induction l with
  | nil => rfl
  | cons a l ih =>
    cases l with
    | nil => simp [runNames]
    | cons b l =>
      have hab : a ≤ b := (List.sorted_cons.mp h).1 b (by simp)
      have htail : (b :: l).Sorted (· ≤ ·) := (List.sorted_cons.mp h).2
      by_cases h' : a = b
      · rw [runNames, if_pos h', ih htail,
          List.dedup_cons_of_mem (show a ∈ b :: l by simp [h'])]
      · have hnm : a ∉ b :: l := by
          intro hmem
          have : b ≤ a := by
            rcases List.mem_cons.mp hmem with h1 | h1
            · exact h1.ge
            · exact (List.sorted_cons.mp htail).1 a h1
          exact h' (le_antisymm hab this)
        rw [runNames, if_neg h', ih htail, List.dedup_cons_of_not_mem hnm]


/-! ## Structure of the query results -/

instance : IsTotal PythonPackageContent (fun a b => a.name ≤ b.name) :=
  ⟨fun a b => le_total a.name b.name⟩

instance : IsTrans PythonPackageContent (fun a b => a.name ≤ b.name) :=
  ⟨fun _ _ _ hab hbc => le_trans hab hbc⟩

theorem contentRows_name (db : Db) (c : PythonPackageContent) :
    ∀ r ∈ contentRows db c, r.name = c.name := by
  intro r hr
  unfold contentRows at hr
  rcases h : db.content_artifacts.filter (fun ca => ca.content = c.pk) with
    _ | ⟨ca, cas⟩
  · rw [h] at hr
    simp at hr
    simp [hr]
  · rw [h] at hr
    obtain ⟨ca', _, hca'⟩ := List.mem_map.mp hr
    simp [← hca']

theorem contentRows_ne_nil (db : Db) (c : PythonPackageContent) :
    contentRows db c ≠ [] := by
  unfold contentRows
  rcases h : db.content_artifacts.filter (fun ca => ca.content = c.pk) with
    _ | ⟨ca, cas⟩
  · rw [h]
    simp
  · rw [h]
    simp

theorem contentRows_names_shape (db : Db) (c : PythonPackageContent) :
    ∃ xs, (contentRows db c).map (·.name) = c.name :: xs ∧
      ∀ x ∈ xs, x = c.name := by
  rcases h : contentRows db c with _ | ⟨r, rs⟩
  · exact absurd h (contentRows_ne_nil db c)
  · refine ⟨rs.map (·.name), ?_, ?_⟩
    · have hr : r.name = c.name :=
        contentRows_name db c r (by rw [h]; simp)
      simp [hr]
    · intro x hx
      obtain ⟨r', hr', hx'⟩ := List.mem_map.mp hx
      rw [← hx']
      exact contentRows_name db c r' (by rw [h]; simp [hr'])

theorem sortedNames_eq (db : Db) :
    (sortedContents db).map (·.name) =
      (db.contents.map (·.name)).insertionSort (· ≤ ·) := by
  have hsort : List.Sorted (fun a b : PythonPackageContent => a.name ≤ b.name)
      (sortedContents db) :=
    List.sorted_insertionSort _ db.contents
  have hs1 : List.Sorted (· ≤ ·) ((sortedContents db).map (·.name)) :=
    List.Pairwise.map _ (fun _ _ h => h) hsort
  have hs2 : List.Sorted (· ≤ ·)
      ((db.contents.map (·.name)).insertionSort (· ≤ ·)) :=
    List.sorted_insertionSort _ _
  refine List.eq_of_perm_of_sorted ?_ hs1 hs2
  exact ((List.perm_insertionSort _ _).map _).trans
    (List.perm_insertionSort _ _).symm

theorem flatMap_names_cons (db : Db) (c : PythonPackageContent)
    (cs : List PythonPackageContent) :
    ∃ xs, ((c :: cs).flatMap (contentRows db)).map (·.name) =
        c.name :: (xs ++ (cs.flatMap (contentRows db)).map (·.name)) ∧
      ∀ x ∈ xs, x = c.name := by
  obtain ⟨xs, hxs, hconst⟩ := contentRows_names_shape db c
  refine ⟨xs, ?_, hconst⟩
  rw [List.flatMap_cons, List.map_append, hxs]
  rfl

theorem runNames_flatMap_cons (db : Db) (cs : List PythonPackageContent) :
    ∀ a, runNames (a :: (cs.flatMap (contentRows db)).map (·.name)) =
      runNames (a :: cs.map (·.name)) := by
  induction cs with
  | nil => intro a; rfl
  | cons c cs ih =>
    intro a
    obtain ⟨xs, hxs, hconst⟩ := flatMap_names_cons db c cs
    rw [hxs]
    by_cases hac : a = c.name
    · have hL : runNames (a :: c.name :: (xs ++
          (cs.flatMap (contentRows db)).map (·.name))) =
          runNames (c.name :: (xs ++
            (cs.flatMap (contentRows db)).map (·.name))) := by
        simp [runNames, hac]
      have hR : runNames (a :: c.name :: cs.map (·.name)) =
          runNames (c.name :: cs.map (·.name)) := by
        simp [runNames, hac]
      rw [List.map_cons, hL, hR, runNames_const_prefix c.name xs _ hconst,
        ih c.name]
    · have h1 : runNames (a :: c.name :: (xs ++
          (cs.flatMap (contentRows db)).map (·.name))) =
          a :: runNames (c.name :: (xs ++
            (cs.flatMap (contentRows db)).map (·.name))) := by
        simp [runNames, hac]
      rw [h1, runNames_const_prefix c.name xs _ hconst, ih c.name,
        List.map_cons]
      simp [runNames, hac]

theorem runNames_releases (db : Db) :
    runNames ((releasesQuery db).map (·.name)) =
      runNames ((sortedContents db).map (·.name)) := by
  unfold releasesQuery
  rcases h : sortedContents db with _ | ⟨c, cs⟩
  · simp
  · obtain ⟨xs, hxs, hconst⟩ := flatMap_names_cons db c cs
    rw [hxs, runNames_const_prefix c.name xs _ hconst,
      runNames_flatMap_cons db cs c.name, List.map_cons]

/-- The sorted distinct project-name list is exactly the run-compressed
name sequence of the `releases` queryset: the correspondence the grouping
loop relies on. -/
theorem projectNames_eq_runNames (db : Db) :
    projectNamesQuery db = runNames ((releasesQuery db).map (·.name)) := by
  rw [runNames_releases, sortedNames_eq, projectNamesQuery,
    runNames_sorted_eq_dedup _ (List.sorted_insertionSort _ _)]

theorem mem_flatMap_names (db : Db) (cs : List PythonPackageContent)
    (y : String)
    (hy : y ∈ (cs.flatMap (contentRows db)).map (·.name)) :
    ∃ c ∈ cs, y = c.name := by
  obtain ⟨r, hr, hry⟩ := List.mem_map.mp hy
  obtain ⟨c, hc, hrc⟩ := List.mem_flatMap.mp hr
  exact ⟨c, hc, by rw [← hry]; exact contentRows_name db c r hrc⟩

theorem pairwise_le_of_const (n : String) (l : List String)
    (h : ∀ x ∈ l, x = n) : l.Pairwise (· ≤ ·) := by
  induction l with
  | nil => simp
  | cons x l ih =>
    refine List.pairwise_cons.mpr ⟨?_, ih fun y hy => h y (by simp [hy])⟩
    intro y hy
    rw [h x (by simp), h y (by simp [hy])]

theorem flatMap_names_sorted (db : Db) :
    ∀ cs : List PythonPackageContent,
      cs.Pairwise (fun a b => a.name ≤ b.name) →
      ((cs.flatMap (contentRows db)).map (·.name)).Pairwise (· ≤ ·) := by
  intro cs
  induction cs with
  | nil => intro _; simp
  | cons c cs ih =>
    intro h
    obtain ⟨hhead, htail⟩ := List.pairwise_cons.mp h
    rw [List.flatMap_cons, List.map_append]
    refine List.pairwise_append.mpr ⟨?_, ih htail, ?_⟩
    · refine pairwise_le_of_const c.name _ fun x hx => ?_
      obtain ⟨r, hr, hrx⟩ := List.mem_map.mp hx
      rw [← hrx]
      exact contentRows_name db c r hr
    · intro x hx y hy
      obtain ⟨r, hr, hrx⟩ := List.mem_map.mp hx
      obtain ⟨c', hc', hyc⟩ := mem_flatMap_names db cs y hy
      rw [← hrx, contentRows_name db c r hr, hyc]
      exact hhead c' hc'

/-- The `releases` queryset is sorted by project name, as its
`order_by("name")` guarantees. -/
theorem releases_names_sorted (db : Db) :
    ((releasesQuery db).map (·.name)).Pairwise (· ≤ ·) := by
  have h : List.Sorted (fun a b : PythonPackageContent => a.name ≤ b.name)
      (sortedContents db) := by
    unfold sortedContents
    exact List.sorted_insertionSort _ _
  exact flatMap_names_sorted db _ h

/-! ## Helper lemmas for the grouping-loop analysis -/

theorem drop_eq_cons_of_get? {α : Type} (l : List α) (i : Nat) (p : α)
    (h : l.get? i = some p) : l.drop i = p :: l.drop (i + 1) := by
  induction l generalizing i with
  | nil => simp at h
  | cons a l ih =>
    cases i with
    | zero =>
      simp at h
      simp [h]
    | succ n =>
      simp only [List.get?_cons_succ] at h
      simpa [List.drop_succ_cons] using ih n h

theorem tripleOf_of_ok (checksums : List (Nat × String)) (r : Release)
    (s : String) (h : resolveChecksum checksums r = .ok s) :
    tripleOf checksums r = (r.filename, "../../" ++ r.filename, s) := by
  simp [tripleOf, h, Except.toOption]

theorem expectedPages_congr (ch : List (Nat × String))
    (rows₁ rows₂ : List Release) :
    ∀ (l : List (String × String)),
      (∀ q ∈ l, rows₁.filter (fun r => r.name = q.1) =
        rows₂.filter (fun r => r.name = q.1)) →
      ∀ pkgs, expectedPages ch rows₁ pkgs l = expectedPages ch rows₂ pkgs l := by
  intro l
  induction l with
  | nil => intro _ pkgs; rfl
  | cons q t ih =>
    intro h pkgs
    rw [expectedPages, expectedPages, h q (by simp),
      ih (fun q' hq' => h q' (by simp [hq'])) []]

theorem halign_pairwise_lt (cur : String) (names : List String)
    (l : List (String × String))
    (hsort : (cur :: names).Pairwise (· ≤ ·))
    (halign : runNames (cur :: names) = l.map Prod.fst) :
    (l.map Prod.fst).Pairwise (· < ·) := by
  rw [← halign]
  exact List.chain'_iff_pairwise.mp
    (runNames_chain_lt _ (List.chain'_iff_pairwise.mpr hsort))

theorem string_append_assoc (a b c : String) : a ++ b ++ c = a ++ (b ++ c) := by
  apply String.ext
  simp [String.data_append]

theorem project_dir_index (p : String) :
    ("simple/" ++ p ++ "/") ++ "index.html" = "simple/" ++ p ++ "/index.html" := by
  rw [string_append_assoc ("simple/" ++ p) "/" "index.html"]
  rfl

theorem write_project_page_ok (index_names : List (String × String))
    (ind : Nat) (pkgs : List (String × String × String))
    (dirs : List String) (fd : PublishedFile × List String)
    (h : write_project_page index_names ind pkgs dirs = .ok fd) :
    ∃ p, index_names.get? ind = some p ∧
      ("simple/" ++ p.2 ++ "/") ∉ dirs ∧
      fd = (⟨"simple/" ++ p.2 ++ "/index.html", .detail p.2 pkgs⟩,
        ("simple/" ++ p.2 ++ "/") :: dirs) := by
  unfold write_project_page at h
  cases hget : index_names.get? ind with
  | none =>
    rw [hget] at h
    simp at h
  | some p =>
    rw [hget] at h
    by_cases hd : ("simple/" ++ p.2 ++ "/") ∈ dirs
    · simp only [hd, if_true] at h
      simp at h
    · simp only [hd, if_false] at h
      simp at h
      rw [project_dir_index p.2] at h
      exact ⟨p, rfl, hd, h.symm⟩

theorem appendRow_ok (checksums : List (Nat × String)) (r : Release)
    (pkgs pkgs₁ : List (String × String × String))
    (h : appendRow checksums r pkgs = .ok pkgs₁) :
    ∃ s, resolveChecksum checksums r = .ok s ∧
      pkgs₁ = pkgs ++ [(r.filename, "../../" ++ r.filename, s)] := by
  unfold appendRow at h
  cases hres : resolveChecksum checksums r with
  | error e =>
    rw [hres] at h
    simp [Except.map] at h
  | ok s =>
    rw [hres] at h
    simp [Except.map] at h
    exact ⟨s, rfl, h.symm⟩

/-- Full characterization of a successful grouping loop: given rows sorted
by name and alignment between the remaining index entries and the
run-compressed remaining name sequence, the files written are exactly one
detail page per remaining index entry, each listing the rows of its
project in row order (the first prefixed by the current accumulator). -/
theorem publishLoop_spec (index_names : List (String × String))
    (checksums : List (Nat × String)) :
    ∀ (rows : List Release) (ind : Nat) (cur : String)
      (pkgs : List (String × String × String)) (dirs : List String)
      (files : List PublishedFile),
      (cur :: rows.map (·.name)).Pairwise (· ≤ ·) →
      runNames (cur :: rows.map (·.name)) =
        (index_names.drop ind).map Prod.fst →
      publishLoop index_names checksums rows ind cur pkgs dirs = .ok files →
      files = expectedPages checksums rows pkgs (index_names.drop ind) := by
  intro rows
  induction rows with
  | nil =>
    intro ind cur pkgs dirs files _hsort halign hok
    simp only [publishLoop] at hok
    cases hwp : write_project_page index_names ind pkgs dirs with
    | error e =>
      rw [hwp] at hok
      simp [bind, Except.bind] at hok
    | ok fd =>
      rw [hwp] at hok
      simp only [bind, Except.bind, pure, Except.pure, Except.ok.injEq] at hok
      obtain ⟨p, hget, _hdir, hfd⟩ := write_project_page_ok _ _ _ _ _ hwp
      have hdrop : index_names.drop ind = p :: index_names.drop (ind + 1) :=
        drop_eq_cons_of_get? _ _ _ hget
      rw [hdrop] at halign
      simp only [List.map_nil, runNames, List.map_cons] at halign
      have htail : index_names.drop (ind + 1) = [] := by
        rcases hd2 : index_names.drop (ind + 1) with _ | ⟨q, t⟩
        · rfl
        · rw [hd2] at halign
          simp at halign
      rw [hdrop, htail, expectedPages]
      simp only [List.filter_nil, List.map_nil, List.append_nil,
        expectedPages]
      rw [← hok, hfd]
  | cons r rest ih =>
    intro ind cur pkgs dirs files hsort halign hok
    by_cases hcase : r.name = cur
    · have hcond : ¬(r.name ≠ cur) := by simp [hcase]
      simp only [publishLoop, if_neg hcond] at hok
      cases happ : appendRow checksums r pkgs with
      | error e =>
        rw [happ] at hok
        simp [bind, Except.bind] at hok
      | ok pkgs₁ =>
        rw [happ] at hok
        simp only [bind, Except.bind] at hok
        obtain ⟨s, hres, hpkgs₁⟩ := appendRow_ok _ _ _ _ happ
        have hsort' : (cur :: rest.map (·.name)).Pairwise (· ≤ ·) := by
          obtain ⟨h1, h2⟩ := List.pairwise_cons.mp hsort
          obtain ⟨_, h4⟩ := List.pairwise_cons.mp h2
          exact List.pairwise_cons.mpr
            ⟨fun y hy => h1 y (List.mem_cons_of_mem _ hy), h4⟩
        have halign' : runNames (cur :: rest.map (·.name)) =
            (index_names.drop ind).map Prod.fst := by
          rw [← halign, List.map_cons, hcase]
          simp [runNames]
        have hfiles := ih ind cur pkgs₁ dirs files hsort' halign' hok
        have hplt := halign_pairwise_lt cur _ (index_names.drop ind)
          hsort halign
        obtain ⟨t0, ht0⟩ := runNames_head cur (rest.map (·.name))
        have hne : (index_names.drop ind).map Prod.fst = cur :: t0 := by
          rw [← halign', ht0]
        rcases hdrop : index_names.drop ind with _ | ⟨q, tail⟩
        · rw [hdrop] at hne
          simp at hne
        · rw [hdrop] at hne
          simp only [List.map_cons] at hne
          have hq1 : q.1 = cur := (List.cons_eq_cons.mp hne).1
          rw [hdrop] at hplt
          simp only [List.map_cons] at hplt
          have hlt : ∀ q' ∈ tail, cur < q'.1 := by
            intro q' hq'
            have := (List.pairwise_cons.mp hplt).1 q'.1
              (List.mem_map_of_mem _ hq')
            rw [← hq1]
            exact this
          rw [hfiles, hdrop]
          rw [expectedPages, expectedPages]
          have hhead : pkgs ++ ((List.filter (fun x => x.name = q.1)
              (r :: rest)).map (tripleOf checksums)) =
              pkgs₁ ++ ((List.filter (fun x => x.name = q.1) rest).map
                (tripleOf checksums)) := by
            rw [List.filter_cons_of_pos (by simp [hcase, hq1]),
              List.map_cons, tripleOf_of_ok checksums r s hres,
              List.append_cons, ← hpkgs₁]
          rw [hhead]
          have hcong : expectedPages checksums (r :: rest) [] tail =
              expectedPages checksums rest [] tail := by
            refine expectedPages_congr checksums (r :: rest) rest tail
              (fun q' hq' => ?_) []
            have hne' : ¬(r.name = q'.1) := by
              intro heq
              have hc : cur < q'.1 := hlt q' hq'
              rw [← heq, hcase] at hc
              exact lt_irrefl _ hc
            exact List.filter_cons_of_neg (by simpa using hne')
          rw [hcong]
    · simp only [publishLoop, if_pos hcase] at hok
      cases hwp : write_project_page index_names ind pkgs dirs with
      | error e =>
        rw [hwp] at hok
        simp [bind, Except.bind] at hok
      | ok fd =>
        rw [hwp] at hok
        simp only [bind, Except.bind] at hok
        obtain ⟨p, hget, _hdir, hfd⟩ := write_project_page_ok _ _ _ _ _ hwp
        have hdrop : index_names.drop ind = p :: index_names.drop (ind + 1) :=
          drop_eq_cons_of_get? _ _ _ hget
        cases hget1 : index_names.get? (ind + 1) with
        | none =>
          rw [hget1] at hok
          simp at hok
        | some nx =>
          rw [hget1] at hok
          simp only [] at hok
          cases happ : appendRow checksums r [] with
          | error e =>
            rw [happ] at hok
            simp [bind, Except.bind] at hok
          | ok pkgs₁ =>
            rw [happ] at hok
            simp only [bind, Except.bind] at hok
            cases hrec : publishLoop index_names checksums rest (ind + 1)
                nx.1 pkgs₁ fd.2 with
            | error e =>
              rw [hrec] at hok
              simp [bind, Except.bind] at hok
            | ok files₂ =>
              rw [hrec] at hok
              simp only [bind, Except.bind, pure, Except.pure,
                Except.ok.injEq] at hok
              obtain ⟨s, hres, hpkgs₁⟩ := appendRow_ok _ _ _ _ happ
              simp only [List.nil_append] at hpkgs₁
              have hdrop1 : index_names.drop (ind + 1) =
                  nx :: index_names.drop (ind + 2) :=
                drop_eq_cons_of_get? _ _ _ hget1
              -- identify heads: p.1 = cur, nx.1 = r.name
              have hcne : cur ≠ r.name := fun h => hcase h.symm
              have halign2 : cur :: runNames (r.name :: rest.map (·.name)) =
                  (index_names.drop ind).map Prod.fst := by
                rw [← halign, List.map_cons, runNames, if_neg hcne]
              rw [hdrop, List.map_cons] at halign2
              have hp1 : p.1 = cur := ((List.cons_eq_cons.mp halign2).1).symm
              have halign3 : runNames (r.name :: rest.map (·.name)) =
                  (index_names.drop (ind + 1)).map Prod.fst :=
                (List.cons_eq_cons.mp halign2).2
              obtain ⟨t1, ht1⟩ := runNames_head r.name (rest.map (·.name))
              have hnx1 : nx.1 = r.name := by
                rw [hdrop1, List.map_cons, ht1] at halign3
                exact ((List.cons_eq_cons.mp halign3).1).symm
              have hsort' : (nx.1 :: rest.map (·.name)).Pairwise (· ≤ ·) := by
                rw [hnx1]
                exact (List.pairwise_cons.mp hsort).2
              have halign' : runNames (nx.1 :: rest.map (·.name)) =
                  (index_names.drop (ind + 1)).map Prod.fst := by
                rw [hnx1]
                exact halign3
              have hfiles₂ := ih (ind + 1) nx.1 pkgs₁ fd.2 files₂
                hsort' halign' hrec
              -- cur < every later display name
              have hculr : cur < r.name :=
                lt_of_le_of_ne ((List.pairwise_cons.mp hsort).1 r.name
                  (by simp)) hcne
              have hler : ∀ x ∈ rest, r.name ≤ x.name := by
                intro x hx
                exact ((List.pairwise_cons.mp
                  (List.pairwise_cons.mp hsort).2).1) x.name
                  (List.mem_map_of_mem _ hx)
              -- the flushed page: filter over (r :: rest) at cur is empty
              have hfilter0 : List.filter (fun x => x.name = p.1)
                  (r :: rest) = [] := by
                rw [List.filter_eq_nil_iff]
                intro x hx
                simp only [decide_eq_true_eq]
                rcases List.mem_cons.mp hx with h | h
                · rw [h, hp1]
                  exact hcase
                · rw [hp1]
                  intro heq
                  exact absurd (heq ▸ lt_of_lt_of_le hculr (hler x h))
                    (lt_irrefl _)
              rw [← hok, hfd, hdrop, expectedPages]
              simp only [hfilter0, List.map_nil, List.append_nil]
              refine congrArg (fun l => _ :: l) ?_
              -- tail: expectedPages over drop (ind+1)
              rw [hfiles₂, hdrop1, expectedPages, expectedPages]
              have hhead : (List.filter (fun x => x.name = nx.1)
                  (r :: rest)).map (tripleOf checksums) =
                  pkgs₁ ++ (List.filter (fun x => x.name = nx.1) rest).map
                    (tripleOf checksums) := by
                rw [List.filter_cons_of_pos (by simp [hnx1]),
                  List.map_cons, tripleOf_of_ok checksums r s hres, hpkgs₁]
                rfl
              rw [List.nil_append, hhead]
              -- remaining tails by congruence: r.name below all later names
              have hplt := halign_pairwise_lt r.name (rest.map (·.name))
                (index_names.drop (ind + 1))
                (List.pairwise_cons.mp hsort).2 halign3
              rw [hdrop1, List.map_cons] at hplt
              have hcong : expectedPages checksums (r :: rest) []
                  (index_names.drop (ind + 2)) =
                  expectedPages checksums rest []
                    (index_names.drop (ind + 2)) := by
                refine expectedPages_congr checksums (r :: rest) rest _
                  (fun q' hq' => ?_) []
                have hlt : nx.1 < q'.1 :=
                  (List.pairwise_cons.mp hplt).1 q'.1
                    (List.mem_map_of_mem _ hq')
                have hne' : ¬(r.name = q'.1) := by
                  intro heq
                  rw [← heq, hnx1] at hlt
                  exact lt_irrefl _ hlt
                exact List.filter_cons_of_neg (by simpa using hne')
              rw [hcong]

theorem string_append_right_cancel {a b c : String} (h : a ++ c = b ++ c) :
    a = b := by
  apply String.ext
  have h2 := congrArg String.data h
  simp only [String.data_append] at h2
  exact List.append_cancel_right h2

/-- On a successful run, every streamed row's checksum resolved: the loop
appends every row, so no row is published without a checksum. -/
theorem publishLoop_rows_ok (index_names : List (String × String))
    (checksums : List (Nat × String)) :
    ∀ (rows : List Release) (ind : Nat) (cur : String)
      (pkgs : List (String × String × String)) (dirs : List String)
      (files : List PublishedFile),
      publishLoop index_names checksums rows ind cur pkgs dirs = .ok files →
      ∀ r ∈ rows, ∃ s, resolveChecksum checksums r = .ok s := by
  intro rows
  induction rows with
  | nil =>
    intro ind cur pkgs dirs files _ r hr
    simp at hr
  | cons r₀ rest ih =>
    intro ind cur pkgs dirs files hok r hr
    by_cases hcase : r₀.name ≠ cur
    · simp only [publishLoop, if_pos hcase] at hok
      cases hwp : write_project_page index_names ind pkgs dirs with
      | error e =>
        rw [hwp] at hok
        simp [bind, Except.bind] at hok
      | ok fd =>
        rw [hwp] at hok
        simp only [bind, Except.bind] at hok
        cases hget1 : index_names.get? (ind + 1) with
        | none =>
          rw [hget1] at hok
          simp at hok
        | some nx =>
          rw [hget1] at hok
          simp only [] at hok
          cases happ : appendRow checksums r₀ [] with
          | error e =>
            rw [happ] at hok
            simp [bind, Except.bind] at hok
          | ok pkgs₁ =>
            rw [happ] at hok
            simp only [bind, Except.bind] at hok
            cases hrec : publishLoop index_names checksums rest (ind + 1)
                nx.1 pkgs₁ fd.2 with
            | error e =>
              rw [hrec] at hok
              simp [bind, Except.bind] at hok
            | ok files₂ =>
              rcases List.mem_cons.mp hr with h | h
              · obtain ⟨s, hres, _⟩ := appendRow_ok _ _ _ _ happ
                exact ⟨s, h ▸ hres⟩
              · exact ih (ind + 1) nx.1 pkgs₁ fd.2 files₂ hrec r h
    · simp only [publishLoop, if_neg hcase] at hok
      cases happ : appendRow checksums r₀ pkgs with
      | error e =>
        rw [happ] at hok
        simp [bind, Except.bind] at hok
      | ok pkgs₁ =>
        rw [happ] at hok
        simp only [bind, Except.bind] at hok
        rcases List.mem_cons.mp hr with h | h
        · obtain ⟨s, hres, _⟩ := appendRow_ok _ _ _ _ happ
          exact ⟨s, h ▸ hres⟩
        · exact ih ind cur pkgs₁ dirs files hok r h

/-- Origin of every triple on every written detail page: it was already in
the starting accumulator, or line 169 built it from a streamed row with
its resolved checksum. -/
theorem publishLoop_triples (index_names : List (String × String))
    (checksums : List (Nat × String)) :
    ∀ (rows : List Release) (ind : Nat) (cur : String)
      (pkgs : List (String × String × String)) (dirs : List String)
      (files : List PublishedFile),
      publishLoop index_names checksums rows ind cur pkgs dirs = .ok files →
      ∀ f ∈ files, ∀ pn pk, f.content = .detail pn pk →
        ∀ t ∈ pk, t ∈ pkgs ∨ ∃ r ∈ rows, ∃ s,
          resolveChecksum checksums r = .ok s ∧
          t = (r.filename, "../../" ++ r.filename, s) := by
  intro rows
  induction rows with
  | nil =>
    intro ind cur pkgs dirs files hok f hf pn pk hc t ht
    simp only [publishLoop] at hok
    cases hwp : write_project_page index_names ind pkgs dirs with
    | error e =>
      rw [hwp] at hok
      simp [bind, Except.bind] at hok
    | ok fd =>
      rw [hwp] at hok
      simp only [bind, Except.bind, pure, Except.pure, Except.ok.injEq] at hok
      obtain ⟨p, _hget, _hdir, hfd⟩ := write_project_page_ok _ _ _ _ _ hwp
      rw [← hok] at hf
      simp at hf
      rw [hf, hfd] at hc
      simp only [Page.detail.injEq] at hc
      left
      rw [hc.2]
      exact ht
  | cons r₀ rest ih =>
    intro ind cur pkgs dirs files hok f hf pn pk hc t ht
    by_cases hcase : r₀.name ≠ cur
    · simp only [publishLoop, if_pos hcase] at hok
      cases hwp : write_project_page index_names ind pkgs dirs with
      | error e =>
        rw [hwp] at hok
        simp [bind, Except.bind] at hok
      | ok fd =>
        rw [hwp] at hok
        simp only [bind, Except.bind] at hok
        cases hget1 : index_names.get? (ind + 1) with
        | none =>
          rw [hget1] at hok
          simp at hok
        | some nx =>
          rw [hget1] at hok
          simp only [] at hok
          cases happ : appendRow checksums r₀ [] with
          | error e =>
            rw [happ] at hok
            simp [bind, Except.bind] at hok
          | ok pkgs₁ =>
            rw [happ] at hok
            simp only [bind, Except.bind] at hok
            cases hrec : publishLoop index_names checksums rest (ind + 1)
                nx.1 pkgs₁ fd.2 with
            | error e =>
              rw [hrec] at hok
              simp [bind, Except.bind] at hok
            | ok files₂ =>
              rw [hrec] at hok
              simp only [bind, Except.bind, pure, Except.pure,
                Except.ok.injEq] at hok
              obtain ⟨p, _hget, _hdir, hfd⟩ :=
                write_project_page_ok _ _ _ _ _ hwp
              obtain ⟨s, hres, hpkgs₁⟩ := appendRow_ok _ _ _ _ happ
              simp only [List.nil_append] at hpkgs₁
              rw [← hok] at hf
              rcases List.mem_cons.mp hf with h | h
              · rw [h, hfd] at hc
                simp only [Page.detail.injEq] at hc
                left
                rw [hc.2]
                exact ht
              · have := ih (ind + 1) nx.1 pkgs₁ fd.2 files₂ hrec f h
                  pn pk hc t ht
                rcases this with h1 | ⟨r, hrmem, s', hres', ht'⟩
                · rw [hpkgs₁] at h1
                  simp at h1
                  right
                  exact ⟨r₀, by simp, s, hres, by simp [h1]⟩
                · right
                  exact ⟨r, List.mem_cons_of_mem _ hrmem, s', hres', ht'⟩
    · simp only [publishLoop, if_neg hcase] at hok
      cases happ : appendRow checksums r₀ pkgs with
      | error e =>
        rw [happ] at hok
        simp [bind, Except.bind] at hok
      | ok pkgs₁ =>
        rw [happ] at hok
        simp only [bind, Except.bind] at hok
        obtain ⟨s, hres, hpkgs₁⟩ := appendRow_ok _ _ _ _ happ
        have := ih ind cur pkgs₁ dirs files hok f hf pn pk hc t ht
        rcases this with h1 | ⟨r, hrmem, s', hres', ht'⟩
        · rw [hpkgs₁] at h1
          rcases List.mem_append.mp h1 with h1 | h1
          · left
            exact h1
          · right
            simp at h1
            exact ⟨r₀, by simp, s, hres, by simp [h1]⟩
        · right
          exact ⟨r, List.mem_cons_of_mem _ hrmem, s', hres', ht'⟩

/-- A successful run never reuses a project directory: the written files
have pairwise distinct paths, and none lies in a directory that already
existed when the loop started (`os.mkdir` would have raised otherwise). -/
theorem publishLoop_paths_nodup (index_names : List (String × String))
    (checksums : List (Nat × String)) :
    ∀ (rows : List Release) (ind : Nat) (cur : String)
      (pkgs : List (String × String × String)) (dirs : List String)
      (files : List PublishedFile),
      publishLoop index_names checksums rows ind cur pkgs dirs = .ok files →
      (files.map (·.relative_path)).Nodup ∧
      ∀ f ∈ files, ∀ d ∈ dirs, f.relative_path ≠ d ++ "index.html" := by
  intro rows
  induction rows with
  | nil =>
    intro ind cur pkgs dirs files hok
    simp only [publishLoop] at hok
    cases hwp : write_project_page index_names ind pkgs dirs with
    | error e =>
      rw [hwp] at hok
      simp [bind, Except.bind] at hok
    | ok fd =>
      rw [hwp] at hok
      simp only [bind, Except.bind, pure, Except.pure, Except.ok.injEq] at hok
      obtain ⟨p, _hget, hdir, hfd⟩ := write_project_page_ok _ _ _ _ _ hwp
      rw [← hok]
      constructor
      · simp
      · intro f hf d hd heq
        simp at hf
        rw [hf, hfd] at heq
        simp only at heq
        rw [← project_dir_index p.2] at heq
        exact hdir ((string_append_right_cancel heq) ▸ hd)
  | cons r₀ rest ih =>
    intro ind cur pkgs dirs files hok
    by_cases hcase : r₀.name ≠ cur
    · simp only [publishLoop, if_pos hcase] at hok
      cases hwp : write_project_page index_names ind pkgs dirs with
      | error e =>
        rw [hwp] at hok
        simp [bind, Except.bind] at hok
      | ok fd =>
        rw [hwp] at hok
        simp only [bind, Except.bind] at hok
        cases hget1 : index_names.get? (ind + 1) with
        | none =>
          rw [hget1] at hok
          simp at hok
        | some nx =>
          rw [hget1] at hok
          simp only [] at hok
          cases happ : appendRow checksums r₀ [] with
          | error e =>
            rw [happ] at hok
            simp [bind, Except.bind] at hok
          | ok pkgs₁ =>
            rw [happ] at hok
            simp only [bind, Except.bind] at hok
            cases hrec : publishLoop index_names checksums rest (ind + 1)
                nx.1 pkgs₁ fd.2 with
            | error e =>
              rw [hrec] at hok
              simp [bind, Except.bind] at hok
            | ok files₂ =>
              rw [hrec] at hok
              simp only [bind, Except.bind, pure, Except.pure,
                Except.ok.injEq] at hok
              obtain ⟨p, _hget, hdir, hfd⟩ :=
                write_project_page_ok _ _ _ _ _ hwp
              obtain ⟨hnd₂, hdisj₂⟩ := ih (ind + 1) nx.1 pkgs₁ fd.2
                files₂ hrec
              have hfd2 : fd.2 = ("simple/" ++ p.2 ++ "/") :: dirs := by
                rw [hfd]
              have hfd1 : fd.1.relative_path =
                  "simple/" ++ p.2 ++ "/index.html" := by
                rw [hfd]
              rw [← hok]
              constructor
              · simp only [List.map_cons, List.nodup_cons]
                refine ⟨?_, hnd₂⟩
                intro hmem
                obtain ⟨f', hf', hpath⟩ := List.mem_map.mp hmem
                refine hdisj₂ f' hf' ("simple/" ++ p.2 ++ "/")
                  (by rw [hfd2]; simp) ?_
                rw [hpath, hfd1, project_dir_index p.2]
              · intro f hf d hd
                rcases List.mem_cons.mp hf with h | h
                · rw [h, hfd1]
                  intro heq
                  rw [← project_dir_index p.2] at heq
                  exact hdir ((string_append_right_cancel heq) ▸ hd)
                · exact hdisj₂ f h d (by rw [hfd2]; simp [hd])
    · simp only [publishLoop, if_neg hcase] at hok
      cases happ : appendRow checksums r₀ pkgs with
      | error e =>
        rw [happ] at hok
        simp [bind, Except.bind] at hok
      | ok pkgs₁ =>
        rw [happ] at hok
        simp only [bind, Except.bind] at hok
        exact ih ind cur pkgs₁ dirs files hok

/-- Relation between the loop and its final-flush-free variant: whenever
the real loop succeeds, the variant succeeds too and writes exactly the
same pages except the final one. -/
theorem publishLoopNoFinal_of_ok (index_names : List (String × String))
    (checksums : List (Nat × String)) :
    ∀ (rows : List Release) (ind : Nat) (cur : String)
      (pkgs : List (String × String × String)) (dirs : List String)
      (files : List PublishedFile),
      publishLoop index_names checksums rows ind cur pkgs dirs = .ok files →
      files ≠ [] ∧
      publishLoopNoFinal index_names checksums rows ind cur pkgs dirs =
        .ok files.dropLast := by
  intro rows
  induction rows with
  | nil =>
    intro ind cur pkgs dirs files hok
    simp only [publishLoop] at hok
    cases hwp : write_project_page index_names ind pkgs dirs with
    | error e =>
      rw [hwp] at hok
      simp [bind, Except.bind] at hok
    | ok fd =>
      rw [hwp] at hok
      simp only [bind, Except.bind, pure, Except.pure, Except.ok.injEq] at hok
      rw [← hok]
      exact ⟨by simp, by simp [publishLoopNoFinal]⟩
  | cons r₀ rest ih =>
    intro ind cur pkgs dirs files hok
    by_cases hcase : r₀.name ≠ cur
    · simp only [publishLoop, if_pos hcase] at hok
      cases hwp : write_project_page index_names ind pkgs dirs with
      | error e =>
        rw [hwp] at hok
        simp [bind, Except.bind] at hok
      | ok fd =>
        rw [hwp] at hok
        simp only [bind, Except.bind] at hok
        cases hget1 : index_names.get? (ind + 1) with
        | none =>
          rw [hget1] at hok
          simp at hok
        | some nx =>
          rw [hget1] at hok
          simp only [] at hok
          cases happ : appendRow checksums r₀ [] with
          | error e =>
            rw [happ] at hok
            simp [bind, Except.bind] at hok
          | ok pkgs₁ =>
            rw [happ] at hok
            simp only [bind, Except.bind] at hok
            cases hrec : publishLoop index_names checksums rest (ind + 1)
                nx.1 pkgs₁ fd.2 with
            | error e =>
              rw [hrec] at hok
              simp [bind, Except.bind] at hok
            | ok files₂ =>
              rw [hrec] at hok
              simp only [bind, Except.bind, pure, Except.pure,
                Except.ok.injEq] at hok
              obtain ⟨hne₂, hnf₂⟩ := ih (ind + 1) nx.1 pkgs₁ fd.2
                files₂ hrec
              rw [← hok]
              refine ⟨by simp, ?_⟩
              simp only [publishLoopNoFinal, if_pos hcase]
              rw [hwp]
              simp only [bind, Except.bind]
              rw [hget1]
              simp only []
              rw [happ]
              simp only [bind, Except.bind]
              rw [hnf₂]
              simp only [bind, Except.bind, pure, Except.pure,
                Except.ok.injEq]
              exact (List.dropLast_cons_of_ne_nil hne₂).symm
    · simp only [publishLoop, if_neg hcase] at hok
      cases happ : appendRow checksums r₀ pkgs with
      | error e =>
        rw [happ] at hok
        simp [bind, Except.bind] at hok
      | ok pkgs₁ =>
        rw [happ] at hok
        simp only [bind, Except.bind] at hok
        obtain ⟨hne₂, hnf₂⟩ := ih ind cur pkgs₁ dirs files hok
        refine ⟨hne₂, ?_⟩
        simp only [publishLoopNoFinal, if_neg hcase]
        rw [happ]
        simp only [bind, Except.bind]
        exact hnf₂

/-- At loop entry (`ind = 0`, `current_name = index_names[0][0]`, line
157), the sortedness and alignment hypotheses of `publishLoop_spec` hold. -/
theorem loop_entry_hyps (db : Db) (p : String × String)
    (t : List (String × String)) (hidx : indexNamesQuery db = p :: t) :
    (p.1 :: (releasesQuery db).map (·.name)).Pairwise (· ≤ ·) ∧
    runNames (p.1 :: (releasesQuery db).map (·.name)) =
      (indexNamesQuery db).map Prod.fst := by
  have hrn : projectNamesQuery db =
      runNames ((releasesQuery db).map (·.name)) :=
    projectNames_eq_runNames db
  have hsorted := releases_names_sorted db
  have hmapfst : (indexNamesQuery db).map Prod.fst = projectNamesQuery db := by
    unfold indexNamesQuery
    rw [List.map_map]
    exact List.map_id _
  have ht' : projectNamesQuery db = p.1 :: t.map Prod.fst := by
    rw [← hmapfst, hidx]
    simp
  rcases hrows : (releasesQuery db).map (·.name) with _ | ⟨n₀, nt⟩
  · rw [hrows, ht'] at hrn
    simp [runNames] at hrn
  · rw [hrows] at hrn hsorted
    rw [hrows]
    obtain ⟨t0, ht0⟩ := runNames_head n₀ nt
    have hn₀ : n₀ = p.1 := by
      rw [ht0, ht'] at hrn
      exact ((List.cons_eq_cons.mp hrn).1).symm
    constructor
    · refine List.pairwise_cons.mpr ⟨?_, hsorted⟩
      intro y hy
      rcases List.mem_cons.mp hy with h | h
      · rw [h, hn₀]
      · calc p.1 = n₀ := hn₀.symm
          _ ≤ y := (List.pairwise_cons.mp hsorted).1 y h
    · have hcollapse : runNames (p.1 :: n₀ :: nt) = runNames (n₀ :: nt) := by
        rw [hn₀]
        simp [runNames]
      rw [hcollapse, ← hrn, hmapfst, ht']

/-- Full characterization of a successful `write_simple_api` run: the root
index followed by one detail page per `index_names` entry, each listing
the rows of its project in row order. -/
theorem write_simple_api_ok_eq (db : Db) (files : List PublishedFile)
    (h : write_simple_api db = .ok files) :
    files = ⟨"simple/index.html", .root (indexNamesQuery db)⟩ ::
      expectedPages (remoteArtifactsQuery db) (releasesQuery db) []
        (indexNamesQuery db) := by
  unfold write_simple_api write_simple_api_core at h
  rw [show ((projectNamesQuery db).map fun n => (n, canonicalize_name n)) =
    indexNamesQuery db from rfl] at h
  rcases hidx : indexNamesQuery db with _ | ⟨p, tIdx⟩
  · rw [hidx] at h
    simp at h
    rw [← h]
    simp [expectedPages]
  · rw [hidx] at h
    simp only [List.length_cons, Nat.succ_ne_zero, if_false,
      List.get?_cons_zero] at h
    cases hloop : publishLoop (p :: tIdx) (remoteArtifactsQuery db)
        (releasesQuery db) 0 p.1 [] [] with
    | error e =>
      rw [hloop] at h
      simp [Except.map] at h
    | ok pages =>
      rw [hloop] at h
      simp only [Except.map, Except.ok.injEq] at h
      obtain ⟨hsort, halign⟩ := loop_entry_hyps db p tIdx hidx
      have hspec := publishLoop_spec (p :: tIdx) (remoteArtifactsQuery db)
        (releasesQuery db) 0 p.1 [] [] pages hsort
        (by rw [halign, hidx]; simp) hloop
      rw [← h, hspec]
      simp

theorem expectedPages_length (ch : List (Nat × String))
    (rows : List Release) :
    ∀ (l : List (String × String)) (pkgs : List (String × String × String)),
      (expectedPages ch rows pkgs l).length = l.length := by
  intro l
  induction l with
  | nil => intro pkgs; rfl
  | cons q t ih =>
    intro pkgs
    simp only [expectedPages, List.length_cons, ih []]

theorem expectedPages_paths (ch : List (Nat × String)) (rows : List Release) :
    ∀ (l : List (String × String)) (pkgs : List (String × String × String)),
      (expectedPages ch rows pkgs l).map (·.relative_path) =
        l.map (fun q => "simple/" ++ q.2 ++ "/index.html") := by
  intro l
  induction l with
  | nil => intro pkgs; rfl
  | cons q t ih =>
    intro pkgs
    simp only [expectedPages, List.map_cons, ih []]

/-- Inversion of a successful run: either there were no projects and only
the empty root index was written, or the grouping loop ran and produced
the detail pages. -/
theorem write_simple_api_ok_inv (db : Db) (files : List PublishedFile)
    (h : write_simple_api db = .ok files) :
    (indexNamesQuery db = [] ∧
      files = [⟨"simple/index.html", .root []⟩]) ∨
    (∃ p tIdx pages, indexNamesQuery db = p :: tIdx ∧
      publishLoop (p :: tIdx) (remoteArtifactsQuery db) (releasesQuery db)
        0 p.1 [] [] = .ok pages ∧
      files = ⟨"simple/index.html", .root (p :: tIdx)⟩ :: pages) := by
  unfold write_simple_api write_simple_api_core at h
  rw [show ((projectNamesQuery db).map fun n => (n, canonicalize_name n)) =
    indexNamesQuery db from rfl] at h
  rcases hidx : indexNamesQuery db with _ | ⟨p, tIdx⟩
  · rw [hidx] at h
    simp at h
    exact Or.inl ⟨rfl, h.symm⟩
  · rw [hidx] at h
    simp only [List.length_cons, Nat.succ_ne_zero, if_false,
      List.get?_cons_zero] at h
    cases hloop : publishLoop (p :: tIdx) (remoteArtifactsQuery db)
        (releasesQuery db) 0 p.1 [] [] with
    | error e =>
      rw [hloop] at h
      simp [Except.map] at h
    | ok pages =>
      rw [hloop] at h
      simp only [Except.map, Except.ok.injEq] at h
      exact Or.inr ⟨p, tIdx, pages, rfl, hloop, h.symm⟩

/-- A successful run implies the canonicalized directory segments are
pairwise distinct — the second `os.mkdir` of a shared segment would have
raised `FileExistsError`. -/
theorem write_simple_api_ok_canonicals_nodup (db : Db)
    (files : List PublishedFile) (h : write_simple_api db = .ok files) :
    ((indexNamesQuery db).map Prod.snd).Nodup := by
  rcases write_simple_api_ok_inv db files h with ⟨hidx, _⟩ |
    ⟨p, tIdx, pages, hidx, hloop, hfiles⟩
  · rw [hidx]
    simp
  · have hnd := (publishLoop_paths_nodup _ _ _ _ _ _ _ _ hloop).1
    have hspec := write_simple_api_ok_eq db files h
    rw [hfiles, hidx] at hspec
    have hpages : pages = expectedPages (remoteArtifactsQuery db)
        (releasesQuery db) [] (p :: tIdx) :=
      (List.cons_eq_cons.mp hspec).2
    rw [hpages, expectedPages_paths] at hnd
    rw [hidx]
    have hmm : (p :: tIdx).map (fun q => "simple/" ++ q.2 ++ "/index.html") =
        ((p :: tIdx).map Prod.snd).map
          (fun c => "simple/" ++ c ++ "/index.html") := by
      rw [List.map_map]
      rfl
    rw [hmm] at hnd
    exact hnd.of_map _

theorem resolveChecksum_ok_inv (ch : List (Nat × String)) (r : Release)
    (s : String) (h : resolveChecksum ch r = .ok s) :
    (pyTruthy r.sha256 = true ∧ some s = r.sha256) ∨
    (pyTruthy r.sha256 = false ∧ ∃ ca, r.contentartifact = some ca ∧
      dictGet ch ca = some s) := by
  unfold resolveChecksum at h
  by_cases ht : pyTruthy r.sha256
  · rw [if_pos ht] at h
    left
    refine ⟨ht, ?_⟩
    cases hsha : r.sha256 with
    | none =>
      rw [hsha] at ht
      simp [pyTruthy] at ht
    | some x =>
      rw [hsha] at h
      simp only [Option.getD_some, Except.ok.injEq] at h
      rw [h]
  · rw [if_neg ht] at h
    right
    refine ⟨by simpa using ht, ?_⟩
    cases hca : r.contentartifact with
    | none =>
      rw [hca] at h
      simp at h
    | some ca =>
      rw [hca] at h
      simp only [] at h
      cases hdg : dictGet ch ca with
      | none =>
        rw [hdg] at h
        simp at h
      | some v =>
        rw [hdg] at h
        simp only [Except.ok.injEq] at h
        exact ⟨ca, rfl, by rw [hdg, h]⟩

theorem releases_nil_of_indexNames_nil (db : Db)
    (h : indexNamesQuery db = []) : releasesQuery db = [] := by
  have hp : projectNamesQuery db = [] := by
    unfold indexNamesQuery at h
    exact List.map_eq_nil_iff.mp h
  have hrn := projectNames_eq_runNames db
  rw [hp] at hrn
  rcases hr : releasesQuery db with _ | ⟨r, rs⟩
  · rfl
  · rw [hr] at hrn
    simp only [List.map_cons] at hrn
    obtain ⟨t0, ht0⟩ := runNames_head r.name (rs.map (·.name))
    rw [ht0] at hrn
    exact absurd hrn.symm (by simp)

theorem root_ne_detail (c : String) :
    ("simple/index.html" : String) ≠ "simple/" ++ c ++ "/index.html" := by
  intro hc
  have hlen := congrArg String.length hc
  rw [String.length_append, String.length_append] at hlen
  have h1 : ("simple/index.html" : String).length = 17 := rfl
  have h2 : ("simple/" : String).length = 7 := rfl
  have h3 : ("/index.html" : String).length = 11 := rfl
  rw [h1, h2, h3] at hlen
  omega

/-! ## Example databases used by the witnesses -/

/-- The spec's concrete scenario (§8): `Django` with a stored-artifact
checksum and `django-rest` with a remote-artifact checksum. -/
def exDb : Db :=
  ⟨[⟨1, "Django", "Django-3.0.tar.gz"⟩,
    ⟨2, "django-rest", "django-rest-1.0.whl"⟩],
   [⟨10, 1, some 100⟩, ⟨11, 2, none⟩],
   [⟨100, "aaa"⟩],
   [⟨11, "bbb"⟩]⟩

/-- The file list `write_simple_api` produces for `exDb`. -/
def exFiles : List PublishedFile :=
  [⟨"simple/index.html",
    .root [("Django", "django"), ("django-rest", "django-rest")]⟩,
   ⟨"simple/django/index.html",
    .detail "django"
      [("Django-3.0.tar.gz", "../../Django-3.0.tar.gz", "aaa")]⟩,
   ⟨"simple/django-rest/index.html",
    .detail "django-rest"
      [("django-rest-1.0.whl", "../../django-rest-1.0.whl", "bbb")]⟩]

theorem exDb_ok : write_simple_api exDb = .ok exFiles := by rfl

theorem mem_expectedPages (ch : List (Nat × String)) (rows : List Release) :
    ∀ (l : List (String × String)), ∀ p ∈ l,
      (⟨"simple/" ++ p.2 ++ "/index.html",
        Page.detail p.2 ((rows.filter (fun r => r.name = p.1)).map
          (tripleOf ch))⟩ : PublishedFile) ∈ expectedPages ch rows [] l := by
  intro l
  induction l with
  | nil =>
    intro p hp
    simp at hp
  | cons q t ih =>
    intro p hp
    rcases List.mem_cons.mp hp with hpq | hpt
    · rw [hpq]
      exact List.mem_cons_self _ _
    · exact List.mem_cons_of_mem _ (ih p hpt)

/-- C1: for every repository version whose publish run completes, exactly
N + 1 files are produced — the root index plus one detail page per
distinct project name — and each project's detail page lists exactly the
package-file rows whose project name is that project's display name, in
the order the `releases` query returns them. -/
theorem C1_publish_file_structure (db : Db) (files : List PublishedFile)
    (h : write_simple_api db = .ok files) :
    files.length = (projectNamesQuery db).length + 1 ∧
    files = ⟨"simple/index.html", .root (indexNamesQuery db)⟩ ::
      expectedPages (remoteArtifactsQuery db) (releasesQuery db) []
        (indexNamesQuery db) ∧
    ∀ p ∈ indexNamesQuery db,
      (⟨"simple/" ++ p.2 ++ "/index.html",
        Page.detail p.2
          (((releasesQuery db).filter (fun r => r.name = p.1)).map
            (tripleOf (remoteArtifactsQuery db)))⟩ : PublishedFile) ∈
        files := by
  have hspec := write_simple_api_ok_eq db files h
  refine ⟨?_, hspec, ?_⟩
  · rw [hspec]
    simp only [List.length_cons, expectedPages_length]
    have : (indexNamesQuery db).length = (projectNamesQuery db).length := by
      unfold indexNamesQuery
      rw [List.length_map]
    omega
  · intro p hp
    rw [hspec]
    exact List.mem_cons_of_mem _
      (mem_expectedPages (remoteArtifactsQuery db) (releasesQuery db)
        (indexNamesQuery db) p hp)

theorem C1_witness :
    write_simple_api exDb = .ok exFiles ∧
    exFiles.length = (projectNamesQuery exDb).length + 1 :=
  ⟨exDb_ok, (C1_publish_file_structure exDb exFiles exDb_ok).1⟩

/-- C2: on a completed run, every triple on every detail page carries the
row's own artifact sha256 when that value is truthy and otherwise the
sha256 found in the precomputed remote-artifact mapping for the row's
content-artifact identifier; moreover every streamed row resolved to some
checksum and none raised the `KeyError` that would have aborted the run —
so no package file is ever published without a checksum. -/
theorem C2_checksum_resolution (db : Db) (files : List PublishedFile)
    (h : write_simple_api db = .ok files) :
    (∀ f ∈ files, ∀ pn pk, f.content = .detail pn pk →
      ∀ t ∈ pk, ∃ r ∈ releasesQuery db,
        t.1 = r.filename ∧ t.2.1 = "../../" ++ r.filename ∧
        ((pyTruthy r.sha256 = true ∧ some t.2.2 = r.sha256) ∨
         (pyTruthy r.sha256 = false ∧ ∃ ca, r.contentartifact = some ca ∧
           dictGet (remoteArtifactsQuery db) ca = some t.2.2))) ∧
    (∀ r ∈ releasesQuery db, ∃ s,
      resolveChecksum (remoteArtifactsQuery db) r = .ok s) ∧
    (∀ r ∈ releasesQuery db,
      resolveChecksum (remoteArtifactsQuery db) r ≠ .error .keyError) := by
  rcases write_simple_api_ok_inv db files h with ⟨hidx, hfiles⟩ |
    ⟨p, tIdx, pages, hidx, hloop, hfiles⟩
  · have hrel : releasesQuery db = [] := releases_nil_of_indexNames_nil db hidx
    refine ⟨?_, ?_, ?_⟩
    · intro f hf pn pk hc t ht
      rw [hfiles] at hf
      simp at hf
      rw [hf] at hc
      simp at hc
    · intro r hr
      rw [hrel] at hr
      simp at hr
    · intro r hr
      rw [hrel] at hr
      simp at hr
  · have hresolve : ∀ r ∈ releasesQuery db, ∃ s,
        resolveChecksum (remoteArtifactsQuery db) r = .ok s :=
      publishLoop_rows_ok _ _ _ _ _ _ _ _ hloop
    refine ⟨?_, hresolve, ?_⟩
    · intro f hf pn pk hc t ht
      rw [hfiles] at hf
      rcases List.mem_cons.mp hf with hfr | hfp
      · rw [hfr] at hc
        simp at hc
      · have horigin := publishLoop_triples _ _ _ _ _ _ _ _ hloop f hfp
          pn pk hc t ht
        rcases horigin with hpk | ⟨r, hrmem, s, hres, htr⟩
        · simp at hpk
        · refine ⟨r, hrmem, ?_, ?_, ?_⟩
          · rw [htr]
          · rw [htr]
          · have hinv := resolveChecksum_ok_inv _ _ _ hres
            have ht22 : t.2.2 = s := by rw [htr]
            rw [ht22]
            exact hinv
    · intro r hr he
      obtain ⟨s, hs⟩ := hresolve r hr
      rw [hs] at he
      exact absurd he (by simp)

theorem C2_witness :
    write_simple_api exDb = .ok exFiles ∧
    ∀ r ∈ releasesQuery exDb, ∃ s,
      resolveChecksum (remoteArtifactsQuery exDb) r = .ok s :=
  ⟨exDb_ok, (C2_checksum_resolution exDb exFiles exDb_ok).2.1⟩

/-! ## C3: canonical-name collisions -/

/-- Two distinct display names, `A-B` and `A.B`, both canonicalizing to
the directory segment `a-b`; both packages have stored checksums, so the
only obstacle to publishing is the directory collision. -/
def c3Db : Db :=
  ⟨[⟨1, "A-B", "f1"⟩, ⟨2, "A.B", "f2"⟩],
   [⟨10, 1, some 100⟩, ⟨11, 2, some 101⟩],
   [⟨100, "aa"⟩, ⟨101, "bb"⟩],
   []⟩

/-- C3 counterexample: with two display names sharing a canonical
directory segment, publish does not complete — the second `os.mkdir` of
`simple/a-b/` raises `FileExistsError` and the run aborts, contradicting
the claim that the collision is tolerated by directory reuse. -/
theorem C3_counterexample :
    write_simple_api c3Db = .error .fileExistsError := by rfl

/-- C3 (amended): a publish run that completes never has two distinct
display names canonicalizing to the same directory segment — on such a
collision the run aborts with an error instead of reusing the directory. -/
theorem C3_amended_collision_aborts (db : Db) (files : List PublishedFile)
    (h : write_simple_api db = .ok files) :
    ((indexNamesQuery db).map Prod.snd).Nodup :=
  write_simple_api_ok_canonicals_nodup db files h

theorem C3_amended_witness :
    write_simple_api exDb = .ok exFiles ∧
    ((indexNamesQuery exDb).map Prod.snd).Nodup :=
  ⟨exDb_ok, C3_amended_collision_aborts exDb exFiles exDb_ok⟩

/-- C4: on a completed run the final flush of line 170 writes the last
project's page exactly once, and with that flush removed (the spec's
counterfactual) a run that completes never writes the last project's page
at all. -/
theorem C4_final_flush_writes_last_page (db : Db)
    (files : List PublishedFile) (h : write_simple_api db = .ok files)
    (hne : indexNamesQuery db ≠ []) :
    ∃ q, (indexNamesQuery db).getLast? = some q ∧
      files.countP (fun f => f.relative_path =
        "simple/" ++ q.2 ++ "/index.html") = 1 ∧
      ∀ files', write_simple_api_noFinalFlush db = .ok files' →
        files'.countP (fun f => f.relative_path =
          "simple/" ++ q.2 ++ "/index.html") = 0 := by
  rcases write_simple_api_ok_inv db files h with ⟨hidx, _⟩ |
    ⟨p, tIdx, pages, hidx, hloop, hfiles⟩
  · exact absurd hidx hne
  · have hspec := write_simple_api_ok_eq db files h
    rw [hfiles, hidx] at hspec
    have hpages : pages = expectedPages (remoteArtifactsQuery db)
        (releasesQuery db) [] (p :: tIdx) :=
      (List.cons_eq_cons.mp hspec).2
    have hnd := (publishLoop_paths_nodup _ _ _ _ _ _ _ _ hloop).1
    have hpaths : pages.map (·.relative_path) =
        (p :: tIdx).map (fun e => "simple/" ++ e.2 ++ "/index.html") := by
      rw [hpages, expectedPages_paths]
    set q := (p :: tIdx).getLast (List.cons_ne_nil p tIdx) with hq
    have hsplit : (p :: tIdx).dropLast ++ [q] = p :: tIdx :=
      List.dropLast_append_getLast (List.cons_ne_nil p tIdx)
    have hpaths2 : pages.map (·.relative_path) =
        ((p :: tIdx).dropLast).map
          (fun e => "simple/" ++ e.2 ++ "/index.html") ++
          ["simple/" ++ q.2 ++ "/index.html"] := by
      rw [hpaths, ← hsplit, List.map_append]
      simp
    have hnotin : ("simple/" ++ q.2 ++ "/index.html") ∉
        ((p :: tIdx).dropLast).map
          (fun e => "simple/" ++ e.2 ++ "/index.html") := by
      rw [hpaths2] at hnd
      have := List.nodup_append.mp hnd
      intro hmem
      exact this.2.2 hmem (by simp)
    refine ⟨q, ?_, ?_, ?_⟩
    · rw [hidx]
      exact List.getLast?_eq_getLast _ _
    · rw [hfiles, List.countP_cons]
      have hroot : (decide (("simple/index.html" : String) =
          "simple/" ++ q.2 ++ "/index.html")) = false := by
        simp only [decide_eq_false_iff_not]
        exact root_ne_detail q.2
      simp only [hroot, if_false, Nat.add_zero]
      have hcp : pages.countP (fun f => f.relative_path =
          "simple/" ++ q.2 ++ "/index.html") =
          (pages.map (·.relative_path)).countP
            (fun s => s = "simple/" ++ q.2 ++ "/index.html") := by
        rw [List.countP_map]
        rfl
      rw [hcp, hpaths2, List.countP_append]
      have hz : (((p :: tIdx).dropLast).map
          (fun e => "simple/" ++ e.2 ++ "/index.html")).countP
            (fun s => s = "simple/" ++ q.2 ++ "/index.html") = 0 := by
        rw [List.countP_eq_zero]
        intro a ha
        simp only [decide_eq_true_eq]
        intro heq
        exact hnotin (heq ▸ ha)
      rw [hz]
      simp
    · intro files' h'
      have hnfl := (publishLoopNoFinal_of_ok _ _ _ _ _ _ _ _ hloop).2
      unfold write_simple_api_noFinalFlush at h'
      rw [hidx] at h'
      simp only [List.length_cons, Nat.succ_ne_zero, if_false,
        List.get?_cons_zero] at h'
      rw [hnfl] at h'
      simp only [Except.map, Except.ok.injEq] at h'
      rw [← h', List.countP_cons]
      have hroot : (decide (("simple/index.html" : String) =
          "simple/" ++ q.2 ++ "/index.html")) = false := by
        simp only [decide_eq_false_iff_not]
        exact root_ne_detail q.2
      simp only [hroot, if_false, Nat.add_zero]
      have hcp : pages.dropLast.countP (fun f => f.relative_path =
          "simple/" ++ q.2 ++ "/index.html") =
          (pages.dropLast.map (·.relative_path)).countP
            (fun s => s = "simple/" ++ q.2 ++ "/index.html") := by
        rw [List.countP_map]
        rfl
      rw [hcp, List.map_dropLast, hpaths2, List.dropLast_concat]
      have hz2 : (((p :: tIdx).dropLast).map
          (fun e => "simple/" ++ e.2 ++ "/index.html")).countP
            (fun s => s = "simple/" ++ q.2 ++ "/index.html") = 0 := by
        rw [List.countP_eq_zero]
        intro a ha
        simp only [decide_eq_true_eq]
        intro heq
        exact hnotin (heq ▸ ha)
      rw [hz2]
      simp

theorem C4_witness :
    write_simple_api exDb = .ok exFiles ∧
    ∃ q, (indexNamesQuery exDb).getLast? = some q ∧
      exFiles.countP (fun f => f.relative_path =
        "simple/" ++ q.2 ++ "/index.html") = 1 ∧
      ∀ files', write_simple_api_noFinalFlush exDb = .ok files' →
        files'.countP (fun f => f.relative_path =
          "simple/" ++ q.2 ++ "/index.html") = 0 :=
  ⟨exDb_ok, C4_final_flush_writes_last_page exDb exFiles exDb_ok
    (by decide)⟩

/-- C5: a repository version with no content publishes exactly one file —
the root index with an empty project list — and the run returns right
after writing it (lines 110-111), before the release and remote-artifact
queries and the grouping loop. -/
theorem C5_empty_version (db : Db) (h : db.contents = []) :
    write_simple_api db = .ok [⟨"simple/index.html", Page.root []⟩] := by
  have hidx : indexNamesQuery db = [] := by
    unfold indexNamesQuery projectNamesQuery
    rw [h]
    rfl
  unfold write_simple_api write_simple_api_core
  rw [show ((projectNamesQuery db).map fun n => (n, canonicalize_name n)) =
    indexNamesQuery db from rfl]
  rw [hidx]
  rfl

/-- An empty repository version whose other tables are nonetheless
populated: the early return ignores them. -/
def c5Db : Db := ⟨[], [⟨1, 99, none⟩], [⟨7, "zz"⟩], [⟨5, "x"⟩]⟩

theorem C5_witness :
    write_simple_api c5Db = .ok [⟨"simple/index.html", Page.root []⟩] :=
  C5_empty_version c5Db rfl

/-- C6: the root index holds one anchor per distinct project, the anchor
texts are exactly the project display names in sorted order without
duplicates, and each anchor's `href` is the canonicalized display name
followed by `/` with no `rel` attribute. -/
theorem C6_root_index (db : Db) (files : List PublishedFile)
    (h : write_simple_api db = .ok files) :
    files.get? 0 =
      some ⟨"simple/index.html", .root (indexNamesQuery db)⟩ ∧
    (Page.root (indexNamesQuery db)).anchors.map Anchor.text =
      projectNamesQuery db ∧
    (projectNamesQuery db).Sorted (· ≤ ·) ∧
    (projectNamesQuery db).Nodup ∧
    ∀ a ∈ (Page.root (indexNamesQuery db)).anchors,
      a.href = canonicalize_name a.text ++ "/" ∧ a.relAttr = none := by
  have hspec := write_simple_api_ok_eq db files h
  refine ⟨?_, ?_, ?_, ?_, ?_⟩
  · rw [hspec]
    rfl
  · show (rootAnchors (indexNamesQuery db)).map Anchor.text = _
    unfold rootAnchors indexNamesQuery
    rw [List.map_map, List.map_map]
    exact List.map_id _
  · unfold projectNamesQuery
    exact List.Pairwise.sublist (List.dedup_sublist _)
      (List.sorted_insertionSort _ _)
  · exact List.nodup_dedup _
  · intro a ha
    simp only [Page.anchors, rootAnchors, List.mem_map] at ha
    obtain ⟨p, hp, hpa⟩ := ha
    simp only [indexNamesQuery, List.mem_map] at hp
    obtain ⟨n, _, hnp⟩ := hp
    rw [← hpa, ← hnp]
    exact ⟨rfl, rfl⟩

theorem C6_witness :
    write_simple_api exDb = .ok exFiles ∧
    exFiles.get? 0 =
      some ⟨"simple/index.html", .root (indexNamesQuery exDb)⟩ ∧
    (projectNamesQuery exDb).Sorted (· ≤ ·) :=
  ⟨exDb_ok, (C6_root_index exDb exFiles exDb_ok).1,
    (C6_root_index exDb exFiles exDb_ok).2.2.1⟩

/-- C7: every package-file entry of every generated detail page renders as
one anchor whose `href` is exactly `../../<filename>#sha256=<checksum>`
with the row's resolved checksum, whose `rel` attribute is `internal`, and
whose text is the package filename. -/
theorem C7_detail_page_anchors (db : Db) (files : List PublishedFile)
    (h : write_simple_api db = .ok files) :
    ∀ f ∈ files, ∀ pn pk, f.content = .detail pn pk →
      (detailAnchors pk).length = pk.length ∧
      ∀ a ∈ detailAnchors pk,
        a.relAttr = some "internal" ∧
        ∃ r ∈ releasesQuery db, ∃ chk,
          resolveChecksum (remoteArtifactsQuery db) r = .ok chk ∧
          a.text = r.filename ∧
          a.href = "../../" ++ r.filename ++ "#sha256=" ++ chk := by
  intro f hf pn pk hc
  refine ⟨by simp [detailAnchors], ?_⟩
  intro a ha
  simp only [detailAnchors, List.mem_map] at ha
  obtain ⟨t, ht, hta⟩ := ha
  refine ⟨by rw [← hta], ?_⟩
  rcases write_simple_api_ok_inv db files h with ⟨hidx, hfiles⟩ |
    ⟨p, tIdx, pages, hidx, hloop, hfiles⟩
  · rw [hfiles] at hf
    simp at hf
    rw [hf] at hc
    simp at hc
  · rw [hfiles] at hf
    rcases List.mem_cons.mp hf with hfr | hfp
    · rw [hfr] at hc
      simp at hc
    · have horigin := publishLoop_triples _ _ _ _ _ _ _ _ hloop f hfp
        pn pk hc t ht
      rcases horigin with hpk | ⟨r, hrmem, s, hres, htr⟩
      · simp at hpk
      · refine ⟨r, hrmem, s, hres, ?_, ?_⟩
        · rw [← hta, htr]
        · rw [← hta, htr]

theorem C7_witness :
    write_simple_api exDb = .ok exFiles ∧
    (detailAnchors
      [("Django-3.0.tar.gz", "../../Django-3.0.tar.gz", "aaa")]).length =
      1 :=
  ⟨exDb_ok,
    (C7_detail_page_anchors exDb exFiles exDb_ok
      ⟨"simple/django/index.html",
        .detail "django"
          [("Django-3.0.tar.gz", "../../Django-3.0.tar.gz", "aaa")]⟩
      (by decide) "django"
      [("Django-3.0.tar.gz", "../../Django-3.0.tar.gz", "aaa")] rfl).1⟩

/-- C8: the publisher is deterministic in its query results — two runs
whose three queries return the same rows in the same order produce the
same outcome, and in particular byte-identical rendered HTML for every
generated file. -/
theorem C8_deterministic (db₁ db₂ : Db)
    (hn : projectNamesQuery db₁ = projectNamesQuery db₂)
    (hr : releasesQuery db₁ = releasesQuery db₂)
    (hc : remoteArtifactsQuery db₁ = remoteArtifactsQuery db₂) :
    write_simple_api db₁ = write_simple_api db₂ ∧
    ∀ files₁ files₂, write_simple_api db₁ = .ok files₁ →
      write_simple_api db₂ = .ok files₂ →
      files₁.map (fun f => (f.relative_path, f.content.render)) =
        files₂.map (fun f => (f.relative_path, f.content.render)) := by
  have heq : write_simple_api db₁ = write_simple_api db₂ := by
    unfold write_simple_api
    rw [hn, hr, hc]
  refine ⟨heq, ?_⟩
  intro files₁ files₂ h₁ h₂
  rw [heq, h₂] at h₁
  injection h₁ with h₁
  rw [h₁]

theorem C8_witness :
    write_simple_api exDb = write_simple_api exDb ∧
    ∀ files₁ files₂, write_simple_api exDb = .ok files₁ →
      write_simple_api exDb = .ok files₂ →
      files₁.map (fun f => (f.relative_path, f.content.render)) =
        files₂.map (fun f => (f.relative_path, f.content.render)) :=
  C8_deterministic exDb exDb rfl rfl rfl

/-- C9: a row whose own `_artifacts__sha256` is the empty string is
handled exactly like a row whose value is null — the `or` of line 168
tests Python truthiness, not nullness, so the empty string also falls back
to the remote-checksum mapping. -/
theorem C9_empty_sha_treated_as_absent (checksums : List (Nat × String))
    (r : Release) (h : r.sha256 = some "") :
    resolveChecksum checksums r =
      resolveChecksum checksums
        ⟨r.name, r.filename, r.contentartifact, none⟩ := by
  unfold resolveChecksum
  rw [h]
  rfl

theorem C9_witness :
    resolveChecksum [(1, "abc")] ⟨"p", "f", some 1, some ""⟩ =
      resolveChecksum [(1, "abc")] ⟨"p", "f", some 1, none⟩ :=
  C9_empty_sha_treated_as_absent [(1, "abc")]
    ⟨"p", "f", some 1, some ""⟩ rfl

theorem contentRows_filename (db : Db) (c : PythonPackageContent) :
    ∀ r ∈ contentRows db c, r.filename = c.filename := by
  intro r hr
  unfold contentRows at hr
  rcases hcas : db.content_artifacts.filter (fun ca => ca.content = c.pk)
    with _ | ⟨ca, cas⟩
  · rw [hcas] at hr
    simp at hr
    simp [hr]
  · rw [hcas] at hr
    obtain ⟨ca', _, hca'⟩ := List.mem_map.mp hr
    simp [← hca']

/-- C10: a package content row related to `k ≥ 1` content-artifacts
contributes one joined `releases` row per relation, so its single detail
page lists its filename `k` times — one anchor per content-artifact pair
rather than exactly once. -/
theorem C10_one_row_per_content_artifact (db : Db)
    (c : PythonPackageContent) (hc : db.contents = [c])
    (hk : 0 < (db.content_artifacts.filter
      (fun ca => ca.content = c.pk)).length)
    (files : List PublishedFile) (h : write_simple_api db = .ok files) :
    ∃ pkgs, files = [⟨"simple/index.html", .root (indexNamesQuery db)⟩,
        ⟨"simple/" ++ canonicalize_name c.name ++ "/index.html",
          .detail (canonicalize_name c.name) pkgs⟩] ∧
      pkgs.length = (db.content_artifacts.filter
        (fun ca => ca.content = c.pk)).length ∧
      ∀ t ∈ pkgs, t.1 = c.filename := by
  have hproj : projectNamesQuery db = [c.name] := by
    rw [projectNamesQuery, hc]
    rfl
  have hidx : indexNamesQuery db = [(c.name, canonicalize_name c.name)] := by
    rw [indexNamesQuery, hproj]
    rfl
  have hsc : sortedContents db = [c] := by
    rw [sortedContents, hc]
    rfl
  have hrows : releasesQuery db = contentRows db c := by
    rw [releasesQuery, hsc]
    simp
  have hfilter : (releasesQuery db).filter (fun r => r.name = c.name) =
      releasesQuery db :=
    List.filter_eq_self.mpr fun r hr => by
      simp only [decide_eq_true_eq]
      rw [hrows] at hr
      exact contentRows_name db c r hr
  have hlen : (releasesQuery db).length =
      (db.content_artifacts.filter (fun ca => ca.content = c.pk)).length := by
    rw [hrows]
    unfold contentRows
    rcases hcas : db.content_artifacts.filter (fun ca => ca.content = c.pk)
      with _ | ⟨ca, cas⟩
    · rw [hcas] at hk
      simp at hk
    · rw [hcas]
      simp
  have hspec := write_simple_api_ok_eq db files h
  refine ⟨(releasesQuery db).map (tripleOf (remoteArtifactsQuery db)),
    ?_, ?_, ?_⟩
  · rw [hspec, hidx]
    simp only [expectedPages, List.nil_append]
    rw [hfilter]
  · rw [List.length_map]
    exact hlen
  · intro t ht
    obtain ⟨r, hr, hrt⟩ := List.mem_map.mp ht
    rw [← hrt]
    rw [hrows] at hr
    exact contentRows_filename db c r hr

/-- Witness content row for C10: one package with two content-artifacts. -/
def c10c : PythonPackageContent := ⟨1, "pkg", "pkg-1.0.tar.gz"⟩

/-- Witness database for C10: `c10c` with two stored content-artifacts. -/
def c10Db : Db :=
  ⟨[c10c],
   [⟨10, 1, some 100⟩, ⟨11, 1, some 101⟩],
   [⟨100, "aa"⟩, ⟨101, "bb"⟩],
   []⟩

/-- The file list `write_simple_api` produces for `c10Db`: the same
filename appears twice on the detail page, once per content-artifact. -/
def c10Files : List PublishedFile :=
  [⟨"simple/index.html", .root [("pkg", "pkg")]⟩,
   ⟨"simple/pkg/index.html",
    .detail "pkg"
      [("pkg-1.0.tar.gz", "../../pkg-1.0.tar.gz", "aa"),
       ("pkg-1.0.tar.gz", "../../pkg-1.0.tar.gz", "bb")]⟩]

theorem C10_witness :
    write_simple_api c10Db = .ok c10Files ∧
    ∃ pkgs, c10Files =
        [⟨"simple/index.html", .root (indexNamesQuery c10Db)⟩,
         ⟨"simple/" ++ canonicalize_name c10c.name ++ "/index.html",
          .detail (canonicalize_name c10c.name) pkgs⟩] ∧
      pkgs.length = (c10Db.content_artifacts.filter
        (fun ca => ca.content = c10c.pk)).length ∧
      ∀ t ∈ pkgs, t.1 = c10c.filename :=
  ⟨by rfl, C10_one_row_per_content_artifact c10Db c10c rfl (by decide)
    c10Files (by rfl)⟩
